import Mathlib

/-!
Verification of the task scheduler in `meilisearch-lib/src/tasks/scheduler.rs`.

The Rust data structures are shallowly embedded:
* `BinaryHeap<PendingTask>` (ordered by reversed id, so the heap maximum is the
  smallest id) is modelled twice. The priority-queue abstraction used by the
  scheduler logic is a list kept sorted by ascending id; `peek`/`pop` act on
  the head, which is exactly the heap's maximum element. For the questions
  where the underlying vector order itself is observable (`drain` iterates the
  vector in whatever order it is in), a second, representation-level model
  (`vecPush`/`vecPop` below) implements the standard library's `push`
  (append + sift-up) and `pop` (swap-remove + `sift_down_to_bottom`) on the
  vector verbatim.
* `BinaryHeap<Arc<AtomicRefCell<TaskList>>>` (the outer queue) is modelled as a
  plain list of task lists; popping the heap maximum is modelled by selecting a
  maximal element w.r.t. the `TaskList` ordering of the source.
* Machine integers (`u64` task ids, `usize` counters) are modelled as `Nat`;
  `usize::MAX` is the explicit constant below.
* Timestamps (`Utc::now`) and the content payload fields that the scheduler
  never inspects (`content_uuid`, `primary_key`) are omitted: the scheduler
  only reads the content tag, the merge strategy and the documents count.
-/

namespace MeiliTasks

abbrev TaskId := Nat


def USIZE_MAX : Nat := 2 ^ 64 - 1

inductive IndexDocumentsMethod
  | ReplaceDocuments
  | UpdateDocuments
deriving DecidableEq, Repr

/-- Modelled from the spec: `TaskContent` lives in `tasks/task.rs`, which is not
among the given sources. §3 of the spec: a tagged variant; the scheduler only
inspects the tag, the merge strategy and `documents_count`; every tag other
than `DocumentAddition` is classified `Other`. -/
inductive TaskContent
  | DocumentAddition (merge_strategy : IndexDocumentsMethod) (documents_count : Nat)
  | IndexDeletion
  | IndexCreation
  | SettingsUpdate
deriving DecidableEq, Repr

/-- Modelled from the spec: `TaskEvent` lives in `tasks/task.rs` (not among the
sources); §3: `is_finished()` is true once a terminal event (Succeeded/Failed)
has been appended. Timestamps carried by the events are omitted. -/
inductive TaskEvent
  | Created
  | Batched (batch_id : Nat)
  | Processing
  | Succeeded
  | Failed
deriving DecidableEq, Repr

/-- Modelled from the spec: `Task` from `tasks/task.rs` (not among the sources),
§3: `{ id, index_uid, content, events }`. -/
structure Task where
  id : Nat
  index_uid : String
  content : TaskContent
  events : List TaskEvent
deriving DecidableEq, Repr

/-- Modelled from the spec: `is_finished()` is true once a terminal event
(Succeeded/Failed) has been appended. -/
def Task.is_finished (t : Task) : Bool :=
  t.events.any fun e =>
    match e with
    | .Succeeded => true
    | .Failed => true
    | _ => false

inductive TaskType
  | DocumentAddition (number : Nat)
  | DocumentsUpdate (number : Nat)
  | Other
deriving DecidableEq, Repr

/-- The `number` field of a document task (0 for `Other`, which carries none). -/
def TaskType.number : TaskType → Nat
  | .DocumentAddition n => n
  | .DocumentsUpdate n => n
  | .Other => 0

/-- `impl PartialEq for TaskType` (scheduler.rs:32): two task types are equal
iff they are the same document variant; `Other` is never equal to anything,
itself included. -/
def taskTypeEq : TaskType → TaskType → Bool
  | .DocumentAddition _, .DocumentAddition _ => true
  | .DocumentsUpdate _, .DocumentsUpdate _ => true
  | _, _ => false

structure PendingTask where
  kind : TaskType
  id : Nat
deriving DecidableEq, Repr

/-- `BinaryHeap<PendingTask>::push` under the reversed-id order, on the
sorted-by-ascending-id list model of the heap. -/
def heapPush (p : PendingTask) : List PendingTask → List PendingTask
  | [] => [p]
  | q :: rest => if p.id < q.id then p :: q :: rest else q :: heapPush p rest

/-- `TaskList` (scheduler.rs:67): an index name together with the heap of its
pending tasks. The heap is the sorted-list model described above. -/
structure TaskList where
  index : String
  tasks : List PendingTask
deriving DecidableEq, Repr

def TaskList.peek (l : TaskList) : Option PendingTask :=
  l.tasks.head?

def TaskList.push (l : TaskList) (p : PendingTask) : TaskList :=
  { l with tasks := heapPush p l.tasks }

/-- `impl Ord for PendingTask` (scheduler.rs:54): compare by id, reversed. -/
def pendingCmp (a b : PendingTask) : Ordering :=
  (compare a.id b.id).swap

/-- `impl Ord for TaskList` (scheduler.rs:108): compare the current heads; an
empty list is less than a non-empty one. -/
def taskListCmp (a b : TaskList) : Ordering :=
  match a.peek, b.peek with
  | none, none => .eq
  | none, some _ => .lt
  | some _, none => .gt
  | some x, some y => pendingCmp x y

def taskListLt (a b : TaskList) : Bool :=
  taskListCmp a b == .lt

/-- `TaskQueue` (scheduler.rs:119). The source keeps both a `HashMap` from
index uid to the (shared, interior-mutable) `TaskList` and a `BinaryHeap` over
the same lists; the two always hold exactly the same lists (entries are created
together in `insert` and removed together in `head_mut`), so the model keeps a
single list of `TaskList`s. -/
structure TaskQueue where
  queue : List TaskList
deriving DecidableEq, Repr

def TaskQueue.empty : TaskQueue := ⟨[]⟩

def TaskQueue.is_empty (q : TaskQueue) : Bool :=
  q.queue.isEmpty

/-- The classification performed at the top of `TaskQueue::insert`
(scheduler.rs:131). -/
def TaskType.ofContent : TaskContent → TaskType
  | .DocumentAddition .ReplaceDocuments n => .DocumentAddition n
  | .DocumentAddition .UpdateDocuments n => .DocumentsUpdate n
  | _ => .Other

def insertList (uid : String) (p : PendingTask) : List TaskList → List TaskList
  | [] => [⟨uid, [p]⟩]
  | l :: rest => if l.index = uid then l.push p :: rest else l :: insertList uid p rest

/-- `TaskQueue::insert` (scheduler.rs:128), minus the assertion (captured
separately by `insertOk`): push onto the existing list of the task's index, or
create a fresh singleton list for it. -/
def TaskQueue.insert (q : TaskQueue) (t : Task) : TaskQueue :=
  ⟨insertList t.index_uid ⟨TaskType.ofContent t.content, t.id⟩ q.queue⟩

/-- The assertion in `TaskQueue::insert` (scheduler.rs:159): the id being
inserted is strictly greater than the head of the existing list of that index
(vacuously true when the list is absent or empty). -/
def TaskQueue.insertOk (q : TaskQueue) (t : Task) : Bool :=
  q.queue.all fun l =>
    if l.index = t.index_uid then
      match l.tasks.head? with
      | some p => p.id < t.id
      | none => true
    else true

/-- Runs a sequence of inserts, recording whether every assertion held. -/
def insertAllOk : TaskQueue → List Task → Bool
  | _, [] => true
  | q, t :: rest => q.insertOk t && insertAllOk (q.insert t) rest

/-- Selection of a maximal `TaskList` (what `BinaryHeap::pop` on the outer
queue returns): returns a maximal element together with the remaining ones. -/
def selectMax (m : TaskList) : List TaskList → TaskList × List TaskList
  | [] => (m, [])
  | x :: xs =>
    if taskListLt m x then
      let r := selectMax x xs
      (r.1, m :: r.2)
    else
      let r := selectMax m xs
      (r.1, x :: r.2)

/-- `self.queue.pop()` in `TaskQueue::head_mut` (scheduler.rs:176). -/
def TaskQueue.popMax (q : TaskQueue) : Option (TaskList × List TaskList) :=
  match q.queue with
  | [] => none
  | l :: rest => some (selectMax l rest)

/-- `TaskQueue::head_mut` (scheduler.rs:175): pop the top list, run `f` on it,
reinsert it if it is still non-empty, drop it (and its map entry) otherwise. -/
def TaskQueue.head_mut {R : Type} (q : TaskQueue) (f : TaskList → R × TaskList) :
    Option R × TaskQueue :=
  match q.popMax with
  | none => (none, q)
  | some (l, rest) =>
    let fr := f l
    if fr.2.tasks.isEmpty then (some fr.1, ⟨rest⟩) else (some fr.1, ⟨fr.2 :: rest⟩)

/-- Modelled from the spec: `SchedulerConfig` lives in `crate::options`, which
is not among the sources. §3/§6 of the spec: `max_batch_size` (treated as at
least 1), optional `max_documents_per_batch`, optional
`debounce_duration_sec`. -/
structure SchedulerConfig where
  max_batch_size : Nat
  max_documents_per_batch : Option Nat
  debounce_duration_sec : Option Nat
deriving DecidableEq, Repr

/-- The coalescing loop of `make_batch` (scheduler.rs:392-419): while the head
has the same task-type variant as `kind`, stop if the batch already holds
`max(max_batch_size, 1)` tasks, otherwise pop the head into the batch, add its
document count, and stop once the count reaches the (after-push) cap. -/
def batchLoop (cfg : SchedulerConfig) (kind : TaskType) :
    List PendingTask → List TaskId → Nat → List TaskId × List PendingTask
  | [], acc, _ => (acc, [])
  | p :: rest, acc, dc =>
    if taskTypeEq p.kind kind then
      if acc.length ≥ max cfg.max_batch_size 1 then (acc, p :: rest)
      else
        match p.kind with
        | .DocumentsUpdate n | .DocumentAddition n =>
          if dc + n ≥ cfg.max_documents_per_batch.getD USIZE_MAX then (acc ++ [p.id], rest)
          else batchLoop cfg kind rest (acc ++ [p.id]) (dc + n)
        | .Other => batchLoop cfg kind rest (acc ++ [p.id]) dc
    else (acc, p :: rest)

/-- The closure passed to `head_mut` inside `make_batch` (scheduler.rs:384):
an `Other` head is batched alone; a document head starts the coalescing loop;
an empty list produces nothing. -/
def processHead (cfg : SchedulerConfig) (l : TaskList) : List TaskId × TaskList :=
  match l.tasks with
  | ⟨.Other, i⟩ :: rest => ([i], { l with tasks := rest })
  | p :: _ =>
    let r := batchLoop cfg p.kind l.tasks [] 0
    (r.1, { l with tasks := r.2 })
  | [] => ([], l)

/-- `make_batch` (scheduler.rs:379), started on an empty `processing` list;
returns the ids moved to `processing` and the queue afterwards. -/
def make_batch (q : TaskQueue) (cfg : SchedulerConfig) : List TaskId × TaskQueue :=
  let r := q.head_mut (processHead cfg)
  (r.1.getD [], r.2)

/-- Iterates `make_batch` the way the repository's `test_make_batch` does:
clear the batch, refill it, record it. -/
def runBatches : Nat → TaskQueue → SchedulerConfig → List (List TaskId) × TaskQueue
  | 0, q, _ => ([], q)
  | n + 1, q, cfg =>
    let r := make_batch q cfg
    let rs := runBatches n r.2 cfg
    (r.1 :: rs.1, rs.2)

def sumNumbers (l : List PendingTask) : Nat :=
  (l.map fun p => p.kind.number).sum

/-- `Job` (tasks/task.rs, not among the sources): opaque to the scheduler,
which only moves jobs through its deque; modelled as a tagged payload. -/
structure Job where
  payload : Nat
deriving DecidableEq, Repr

/-- `Batch` (tasks/batch.rs, not among the sources): §6 of the spec,
`{ id = first task's id, created_at, tasks }`; the wall-clock `created_at` is
omitted. -/
structure Batch where
  id : Nat
  tasks : List Task
deriving DecidableEq, Repr

inductive Pending
  | Batch (b : Batch)
  | Job (j : Job)
  | Nothing
deriving DecidableEq, Repr

/-- Descending-id order on tasks, used to model the store's `list_tasks`
ordering. -/
def taskGe (a b : Task) : Prop := b.id ≤ a.id

instance : DecidableRel taskGe := fun a b => Nat.decLe b.id a.id

instance : IsTotal Task taskGe := ⟨fun a b => le_total b.id a.id⟩

instance : IsTrans Task taskGe := ⟨fun _ _ _ h h' => le_trans h' h⟩

def pendingIn (store : List Task) (after : TaskId) : List Task :=
  store.filter fun t => after ≤ t.id && !t.is_finished

/-- Modelled from the spec: the durable store's
`list_tasks(Some(after), filter !is_finished, None)` as used by
`fetch_pending_tasks` — §6: tasks with id ≥ `after` matching the filter, in
descending id order, no limit. The store content is a list of tasks. -/
def list_tasks_pending (store : List Task) (after : TaskId) : List Task :=
  List.insertionSort taskGe (pendingIn store after)

/-- Ascending-id order on tasks, used to model `get_pending_tasks`. -/
def taskLe (a b : Task) : Prop := a.id ≤ b.id

instance : DecidableRel taskLe := fun a b => Nat.decLe a.id b.id

instance : IsTotal Task taskLe := ⟨fun a b => le_total a.id b.id⟩

instance : IsTrans Task taskLe := ⟨fun _ _ _ h h' => le_trans h h'⟩

/-- Modelled from the spec: `store.get_pending_tasks(ids)` — §4.3/§6: the
subset of the given ids that are still pending, with their task records, in
ascending id order. -/
def get_pending_tasks (store : List Task) (ids : List TaskId) : List TaskId × List Task :=
  let ts := List.insertionSort taskLe
    (store.filter fun t => ids.contains t.id && !t.is_finished)
  (ts.map Task.id, ts)

/-- `Scheduler` (scheduler.rs:196). The store handle is modelled by the store's
content (a list of tasks); the watch-channel notifier is replaced by the
boolean "was notify fired" returned from `prepare`. -/
structure Scheduler where
  jobs : List Job
  tasks : TaskQueue
  store : List Task
  processing : List TaskId
  next_fetched_task_id : Nat
  config : SchedulerConfig
deriving DecidableEq, Repr

/-- The body of the `for_each` in `fetch_pending_tasks` (scheduler.rs:311):
advance `next_fetched_task_id` past the task's id and register the task. -/
def fetchStep (st : Scheduler) (t : Task) : Scheduler :=
  { st with
    next_fetched_task_id := t.id + 1
    tasks := st.tasks.insert t }

/-- `Scheduler::fetch_pending_tasks` (scheduler.rs:299): list the unfinished
tasks from `next_fetched_task_id` on (descending), then iterate them reversed
(ascending), advancing `next_fetched_task_id` past each id and registering it
in the task queue. -/
def fetch_pending_tasks (s : Scheduler) : Scheduler :=
  (list_tasks_pending s.store s.next_fetched_task_id).reverse.foldl fetchStep s

/-- The condition under which `Scheduler::notifiy_if_not_empty`
(scheduler.rs:261) fires `notify()`, exactly as written in the source:
`!!self.jobs.is_empty() || !self.tasks.is_empty()`. -/
def notifiy_if_not_empty_fires (s : Scheduler) : Bool :=
  !(!(s.jobs.isEmpty)) || !(s.tasks.is_empty)

/-- `Scheduler::prepare` (scheduler.rs:320): pop a job if any (notifying per
`notifiy_if_not_empty`); otherwise fetch pending tasks, assemble a batch, and
for a non-empty batch confirm the ids with the store, stamp `Batched` events,
set `processing`, notify, and return the batch. `none` models the `panic!` on
a batch that came back empty from the store. The third component records
whether `notify()` was fired during the call. -/
def prepare (s : Scheduler) : Option (Pending × Scheduler × Bool) :=
  match s.jobs with
  | j :: rest =>
    let s' := { s with jobs := rest }
    some (.Job j, s', notifiy_if_not_empty_fires s')
  | [] =>
    let s1 := fetch_pending_tasks s
    let r := make_batch s1.tasks s1.config
    let s2 := { s1 with tasks := r.2, processing := [] }
    if r.1.isEmpty then some (.Nothing, s2, false)
    else
      let gp := get_pending_tasks s2.store r.1
      match gp.2 with
      | [] => none
      | t0 :: _ =>
        let stamped := gp.2.map fun t => { t with events := t.events ++ [TaskEvent.Batched t0.id] }
        let s3 := { s2 with processing := gp.1 }
        some (.Batch ⟨t0.id, stamped⟩, s3, notifiy_if_not_empty_fires s3)

/-- Task-queue states reachable from the empty queue by `insert`s. -/
inductive Reachable : TaskQueue → Prop
  | empty : Reachable TaskQueue.empty
  | insert {q : TaskQueue} (t : Task) : Reachable q → Reachable (q.insert t)

/-- Heap states reachable by any sequence of `push` and `pop` operations on
the (sorted-list model of the) pending-task heap of a `TaskList`. -/
inductive HeapReach : List PendingTask → Prop
  | nil : HeapReach []
  | push {ts : List PendingTask} (p : PendingTask) : HeapReach ts → HeapReach (heapPush p ts)
  | pop {ts : List PendingTask} : HeapReach ts → HeapReach ts.tail

/-- Out-of-bounds default for vector reads; every read below is in-bounds when
the operations are applied the way the standard library applies them. -/
def dummy : PendingTask := ⟨TaskType.Other, 0⟩

/-- `BinaryHeap::sift_up` (Rust std) on the underlying vector, with the hole
optimisation written as plain swaps: while `pos > start` and the element at
`pos` is greater (here: has the smaller id) than its parent, swap them. -/
def siftUpFrom (start : Nat) (l : List PendingTask) (pos : Nat) : List PendingTask :=
  if h : start < pos then
    let parent := (pos - 1) / 2
    let elem := l.getD pos dummy
    let par := l.getD parent dummy
    if elem.id < par.id then
      siftUpFrom start ((l.set pos par).set parent elem) parent
    else l
  else l
termination_by pos
decreasing_by
  simp_wf
  omega

/-- `BinaryHeap::push` (Rust std): append to the vector, then sift the new
slot up. -/
def vecPush (p : PendingTask) (l : List PendingTask) : List PendingTask :=
  siftUpFrom 0 (l ++ [p]) l.length

/-- The descent loop of `BinaryHeap::sift_down_to_bottom` (Rust std): while
both children of `pos` exist, swap `pos` with its greater child (ties go
right, matching `get(child) <= get(child + 1)` under the reversed-id order)
and descend into it. -/
def toBottom (l : List PendingTask) (pos : Nat) : List PendingTask × Nat :=
  if h : 2 * pos + 2 < l.length then
    let child := 2 * pos + 1
    let c := if (l.getD (child + 1) dummy).id ≤ (l.getD child dummy).id then child + 1 else child
    toBottom ((l.set pos (l.getD c dummy)).set c (l.getD pos dummy)) c
  else (l, pos)
termination_by l.length - pos
decreasing_by
  simp_wf
  split <;> omega

/-- `BinaryHeap::sift_down_to_bottom` (Rust std): walk the element at `pos`
to the bottom along greater children, take a final single left child when one
exists, then sift back up (not above `pos`, the `start` of the Rust code). -/
def siftDownToBottom (l : List PendingTask) (pos : Nat) : List PendingTask :=
  let r := toBottom l pos
  let child := 2 * r.2 + 1
  if child + 1 = r.1.length then
    siftUpFrom pos ((r.1.set r.2 (r.1.getD child dummy)).set child (r.1.getD r.2 dummy)) child
  else
    siftUpFrom pos r.1 r.2

/-- `BinaryHeap::pop` (Rust std): remove the last vector element; if the heap
is still non-empty, swap it with the root and sift down from the top; the old
root (the maximum, i.e. the smallest id) is returned. -/
def vecPop (l : List PendingTask) : Option PendingTask × List PendingTask :=
  match l.getLast? with
  | none => (none, l)
  | some last =>
    let rest := l.dropLast
    if rest.isEmpty then (some last, rest)
    else
      (some (rest.getD 0 dummy), siftDownToBottom (rest.set 0 last) 0)

/-- Vector-heap states reachable by any sequence of `push` and `pop`
operations, on the representation-level model. -/
inductive VecReach : List PendingTask → Prop
  | nil : VecReach []
  | push {v : List PendingTask} (p : PendingTask) : VecReach v → VecReach (vecPush p v)
  | pop {v : List PendingTask} : VecReach v → VecReach (vecPop v).2

/-- The vector after pushing ids 0,1,2,3,4 (monotone, so every insert
assertion would hold) and popping once: `pop` removes 4 from the tail, swaps
it into the root slot and sifts down, leaving the vector [1, 3, 2, 4]. -/
def C7vec : List PendingTask :=
  (vecPop (vecPush ⟨TaskType.Other, 4⟩ (vecPush ⟨TaskType.Other, 3⟩
    (vecPush ⟨TaskType.Other, 2⟩ (vecPush ⟨TaskType.Other, 1⟩
      (vecPush ⟨TaskType.Other, 0⟩ [])))))).2

/-- The `DocumentAddition { merge_strategy: ReplaceDocuments, documents_count: 0, .. }`
content used by the repository's `test_make_batch`. -/
def addR : TaskContent := .DocumentAddition .ReplaceDocuments 0

/-- The queue built by the eight inserts of `test_make_batch`
(scheduler.rs:478-485), with indexes named `a`/`b` as in the spec's concrete
scenario. -/
def C2queue : TaskQueue :=
  (((((((TaskQueue.empty.insert ⟨0, "a", addR, []⟩).insert ⟨1, "b", addR, []⟩).insert
      ⟨2, "b", .IndexDeletion, []⟩).insert ⟨3, "b", addR, []⟩).insert
      ⟨4, "a", addR, []⟩).insert ⟨5, "a", .IndexDeletion, []⟩).insert
      ⟨6, "b", addR, []⟩).insert ⟨7, "a", addR, []⟩

/-! ### Lemmas about the pending-task heap model -/

def pendingLe (a b : PendingTask) : Prop := a.id ≤ b.id

theorem mem_heapPush {x p : PendingTask} {ts : List PendingTask} :
    x ∈ heapPush p ts ↔ x = p ∨ x ∈ ts := by
  induction ts with
  | nil => simp [heapPush]
  | cons q rest ih =>
    by_cases h : p.id < q.id
    · simp [heapPush, h]
    · simp only [heapPush, if_neg h, List.mem_cons, ih]
      tauto

theorem pairwise_heapPush {p : PendingTask} {ts : List PendingTask}
    (h : List.Pairwise pendingLe ts) : List.Pairwise pendingLe (heapPush p ts) := by
  induction ts with
  | nil => simp [heapPush]
  | cons q rest ih =>
    rcases h with - | ⟨hq, hrest⟩
    by_cases hlt : p.id < q.id
    · simp only [heapPush, if_pos hlt]
      refine List.Pairwise.cons ?_ (List.Pairwise.cons hq hrest)
      intro y hy
      rcases List.mem_cons.mp hy with rfl | hy
      · exact Nat.le_of_lt hlt
      · exact Nat.le_of_lt (Nat.lt_of_lt_of_le hlt (hq y hy))
    · simp only [heapPush, if_neg hlt]
      refine List.Pairwise.cons ?_ (ih hrest)
      intro y hy
      rcases mem_heapPush.mp hy with rfl | hy
      · exact Nat.le_of_not_lt hlt
      · exact hq y hy

theorem mem_insertList {l' : TaskList} {uid : String} {p : PendingTask}
    {ls : List TaskList} (h : l' ∈ insertList uid p ls) :
    l' ∈ ls ∨ (∃ l ∈ ls, l' = l.push p) ∨ l' = ⟨uid, [p]⟩ := by
  induction ls with
  | nil => simp [insertList] at h; tauto
  | cons l rest ih =>
    by_cases heq : l.index = uid
    · simp only [insertList, if_pos heq, List.mem_cons] at h
      rcases h with rfl | h
      · exact Or.inr (Or.inl ⟨l, List.mem_cons_self l rest, rfl⟩)
      · exact Or.inl (List.mem_cons_of_mem l h)
    · simp only [insertList, if_neg heq, List.mem_cons] at h
      rcases h with rfl | h
      · exact Or.inl (List.mem_cons_self l' rest)
      · rcases ih h with h | ⟨l₀, hl₀, rfl⟩ | rfl
        · exact Or.inl (List.mem_cons_of_mem l h)
        · exact Or.inr (Or.inl ⟨l₀, List.mem_cons_of_mem l hl₀, rfl⟩)
        · exact Or.inr (Or.inr rfl)

/-- Every list of a reachable task queue is sorted by ascending id: the model
invariant that mirrors the `BinaryHeap` ordering of the source. -/
theorem reachable_sorted {q : TaskQueue} (h : Reachable q) :
    ∀ l ∈ q.queue, List.Pairwise pendingLe l.tasks := by
  induction h with
  | empty => intro l hl; simp [TaskQueue.empty] at hl
  | insert t hq ih =>
    intro l hl
    rcases mem_insertList hl with hl | ⟨l₀, hl₀, rfl⟩ | rfl
    · exact ih l hl
    · exact pairwise_heapPush (ih l₀ hl₀)
    · simp

/-! ### Lemmas about the ordering of task lists and the outer heap -/

theorem swap_beq_lt {o : Ordering} : (o.swap == Ordering.lt) = true ↔ o = Ordering.gt := by
  cases o <;> decide

theorem taskListLt_true {a b : TaskList} :
    taskListLt a b = true ↔
      match a.peek, b.peek with
      | none, none => False
      | none, some _ => True
      | some _, none => False
      | some x, some y => y.id < x.id := by
  unfold taskListLt taskListCmp
  cases ha : a.peek with
  | none =>
    cases hb : b.peek with
    | none =>
      show (Ordering.eq == Ordering.lt) = true ↔ False
      decide
    | some y =>
      show (Ordering.lt == Ordering.lt) = true ↔ True
      decide
  | some x =>
    cases hb : b.peek with
    | none =>
      show (Ordering.gt == Ordering.lt) = true ↔ False
      decide
    | some y =>
      show ((compare x.id y.id).swap == Ordering.lt) = true ↔ y.id < x.id
      rw [swap_beq_lt]
      exact Nat.compare_eq_gt

theorem taskListLt_trans {a b c : TaskList}
    (hab : taskListLt a b = true) (hbc : taskListLt b c = true) :
    taskListLt a c = true := by
  rw [taskListLt_true] at hab hbc ⊢
  cases ha : a.peek <;> cases hb : b.peek <;> cases hc : c.peek <;>
    simp only [ha, hb, hc] at hab hbc ⊢ <;> omega

theorem taskListLt_false_trans {a b c : TaskList}
    (hab : taskListLt a b = false) (hbc : taskListLt b c = false) :
    taskListLt a c = false := by
  rw [Bool.eq_false_iff, ne_eq, taskListLt_true] at hab hbc ⊢
  cases ha : a.peek <;> cases hb : b.peek <;> cases hc : c.peek <;>
    simp only [ha, hb, hc, not_true, not_false_iff] at hab hbc ⊢ <;> omega

theorem taskListLt_irrefl {a : TaskList} : taskListLt a a = false := by
  rw [Bool.eq_false_iff, ne_eq, taskListLt_true]
  cases ha : a.peek <;> simp

/-- `selectMax` returns one of the given lists, and one that no other of them
exceeds in the `TaskList` order: exactly what `BinaryHeap::pop` guarantees. -/
theorem selectMax_spec (m : TaskList) (xs : List TaskList) :
    ((selectMax m xs).1 = m ∨ (selectMax m xs).1 ∈ xs) ∧
      (∀ y, (y = m ∨ y ∈ xs) → taskListLt (selectMax m xs).1 y = false) := by
  induction xs generalizing m with
  | nil =>
    refine ⟨Or.inl rfl, ?_⟩
    intro y hy
    rcases hy with rfl | hy
    · simpa [selectMax] using taskListLt_irrefl
    · simp at hy
  | cons x xs ih =>
    by_cases hmx : taskListLt m x = true
    · obtain ⟨hmem, hmax⟩ := ih x
      constructor
      · simp only [selectMax, hmx, if_pos]
        rcases hmem with h | h
        · exact Or.inr (by simp [h])
        · exact Or.inr (by simp [h])
      · intro y hy
        have hrx : taskListLt (selectMax x xs).1 x = false := hmax x (Or.inl rfl)
        have hres : ∀ z, z = x ∨ z ∈ xs → taskListLt (selectMax x xs).1 z = false := hmax
        simp only [selectMax, hmx, if_pos]
        rcases hy with rfl | hy
        · -- y = m: if the result were below m, then by m < x it is below x.
          rw [Bool.eq_false_iff, ne_eq]
          intro hcon
          have := taskListLt_trans hcon hmx
          rw [hrx] at this
          exact Bool.false_ne_true this
        · rcases List.mem_cons.mp hy with rfl | hy
          · exact hrx
          · exact hres y (Or.inr hy)
    · obtain ⟨hmem, hmax⟩ := ih m
      have hmx' : taskListLt m x = false := Bool.eq_false_iff.mpr hmx
      constructor
      · simp only [selectMax, hmx, if_neg]
        rcases hmem with h | h
        · exact Or.inl h
        · exact Or.inr (by simp [h])
      · intro y hy
        have hrm : taskListLt (selectMax m xs).1 m = false := hmax m (Or.inl rfl)
        simp only [selectMax, hmx, if_neg]
        rcases hy with rfl | hy
        · exact hrm
        · rcases List.mem_cons.mp hy with rfl | hy
          · exact taskListLt_false_trans hrm hmx'
          · exact hmax y (Or.inr hy)

/-! ### The batching loop -/

theorem sumNumbers_nil : sumNumbers [] = 0 := rfl

theorem sumNumbers_cons (p : PendingTask) (l : List PendingTask) :
    sumNumbers (p :: l) = p.kind.number + sumNumbers l := by
  simp [sumNumbers]

theorem batchLoop_stop (cfg : SchedulerConfig) (kind : TaskType) (p : PendingTask)
    (rest : List PendingTask) (acc : List TaskId) (dc : Nat)
    (hk : taskTypeEq p.kind kind = false) :
    batchLoop cfg kind (p :: rest) acc dc = (acc, p :: rest) := by
  simp [batchLoop, hk]

theorem batchLoop_full (cfg : SchedulerConfig) (kind : TaskType) (p : PendingTask)
    (rest : List PendingTask) (acc : List TaskId) (dc : Nat)
    (hk : taskTypeEq p.kind kind = true)
    (hfull : acc.length ≥ max cfg.max_batch_size 1) :
    batchLoop cfg kind (p :: rest) acc dc = (acc, p :: rest) := by
  simp [batchLoop, hk, hfull]

/-- One iteration of the loop on a same-kind head with room left in the batch:
push the id, add the document count, and stop or continue according to the
(after-push) cap check. The head cannot be `Other`, since `Other` equals no
kind. -/
theorem batchLoop_push (cfg : SchedulerConfig) (kind : TaskType) (p : PendingTask)
    (rest : List PendingTask) (acc : List TaskId) (dc : Nat)
    (hk : taskTypeEq p.kind kind = true)
    (hfull : ¬ acc.length ≥ max cfg.max_batch_size 1) :
    batchLoop cfg kind (p :: rest) acc dc =
      if dc + p.kind.number ≥ cfg.max_documents_per_batch.getD USIZE_MAX
      then (acc ++ [p.id], rest)
      else batchLoop cfg kind rest (acc ++ [p.id]) (dc + p.kind.number) := by
  obtain ⟨pk, pid⟩ := p
  rcases pk with n | n | _
  · simp [batchLoop, hk, hfull, TaskType.number]
  · simp [batchLoop, hk, hfull, TaskType.number]
  · exfalso
    cases kind <;> simp [taskTypeEq] at hk

/-- Everything `batchLoop` does: it pops a prefix of the list into the batch,
every popped task has the variant of `kind`, the batch never grows past
`max(max_batch_size, 1)`, and (under a document cap that the running count has
not yet reached) the count stays below the cap until the very last pop. -/
theorem batchLoop_spec (cfg : SchedulerConfig) (kind : TaskType) :
    ∀ (l : List PendingTask) (acc : List TaskId) (dc : Nat),
      ∃ k, (batchLoop cfg kind l acc dc).1 = acc ++ (l.take k).map PendingTask.id ∧
        (batchLoop cfg kind l acc dc).2 = l.drop k ∧
        (∀ p ∈ l.take k, taskTypeEq p.kind kind = true) ∧
        (k = 0 ∨ acc.length + k ≤ max cfg.max_batch_size 1) ∧
        (∀ c, cfg.max_documents_per_batch = some c → dc < c →
          ∀ p, (l.take k).getLast? = some p →
            dc + sumNumbers (l.take k) < c + p.kind.number) := by
  intro l
  induction l with
  | nil =>
    intro acc dc
    exact ⟨0, by simp [batchLoop], by simp [batchLoop], by simp, Or.inl rfl, by simp⟩
  | cons p rest ih =>
    intro acc dc
    by_cases hk : taskTypeEq p.kind kind = true
    · by_cases hfull : acc.length ≥ max cfg.max_batch_size 1
      · rw [batchLoop_full cfg kind p rest acc dc hk hfull]
        exact ⟨0, by simp, by simp, by simp, Or.inl rfl, by simp⟩
      · have hlen : acc.length + 1 ≤ max cfg.max_batch_size 1 := by omega
        rw [batchLoop_push cfg kind p rest acc dc hk hfull]
        by_cases hcap : dc + p.kind.number ≥ cfg.max_documents_per_batch.getD USIZE_MAX
        · rw [if_pos hcap]
          refine ⟨1, by simp, by simp, ?_, Or.inr hlen, ?_⟩
          · intro x hx
            simp only [List.take_succ_cons, List.take_zero, List.mem_singleton] at hx
            subst hx
            exact hk
          · intro c hc hdc x hx
            simp only [List.take_succ_cons, List.take_zero, List.getLast?_singleton,
              Option.some.injEq] at hx
            subst hx
            rw [List.take_succ_cons, List.take_zero, sumNumbers_cons, sumNumbers_nil]
            omega
        · rw [if_neg hcap]
          obtain ⟨k, h1, h2, h3, h4, h5⟩ := ih (acc ++ [p.id]) (dc + p.kind.number)
          have h4' : k = 0 ∨ acc.length + 1 + k ≤ max cfg.max_batch_size 1 := by
            simpa using h4
          refine ⟨k + 1, ?_, ?_, ?_, Or.inr (by omega), ?_⟩
          · rw [h1, List.take_succ_cons, List.map_cons]
            simp
          · rw [h2, List.drop_succ_cons]
          · intro x hx
            rw [List.take_succ_cons] at hx
            rcases List.mem_cons.mp hx with rfl | hx
            · exact hk
            · exact h3 x hx
          · intro c hc hdc x hx
            have hdc' : dc + p.kind.number < c := by
              rw [hc] at hcap
              simpa [Option.getD] using hcap
            rw [List.take_succ_cons] at hx ⊢
            rw [sumNumbers_cons]
            rcases htk : rest.take k with _ | ⟨q, qs⟩
            · rw [htk] at hx
              simp only [List.getLast?_singleton, Option.some.injEq] at hx
              subst hx
              rw [sumNumbers_nil]
              omega
            · rw [htk] at hx
              rw [List.getLast?_cons_cons] at hx
              have h5' := h5 c hc hdc' x (by rw [htk]; exact hx)
              rw [htk] at h5'
              omega
    · rw [batchLoop_stop cfg kind p rest acc dc (Bool.eq_false_iff.mpr hk)]
      exact ⟨0, by simp, by simp, by simp, Or.inl rfl, by simp⟩

/-- What one call of the closure in `make_batch` does to the head list:
a prefix of the (sorted) pending list moves into the batch; the prefix is a
single `Other` task, or document tasks all of the head's variant; its length
respects `max(max_batch_size, 1)`; and under a positive document cap the sum
of the batched counts stays below cap + last count. -/
theorem processHead_spec (cfg : SchedulerConfig) (l : TaskList) :
    ∃ k, (processHead cfg l).1 = (l.tasks.take k).map PendingTask.id ∧
      (processHead cfg l).2 = { l with tasks := l.tasks.drop k } ∧
      (k = 0 ∨ k ≤ max cfg.max_batch_size 1) ∧
      ((∃ i rest', l.tasks = ⟨TaskType.Other, i⟩ :: rest' ∧ k = 1) ∨
       (∃ p, l.tasks.head? = some p ∧ p.kind ≠ TaskType.Other ∧
         ∀ x ∈ l.tasks.take k, taskTypeEq x.kind p.kind = true) ∨
       (l.tasks = [] ∧ k = 0)) ∧
      (∀ c, cfg.max_documents_per_batch = some c → 0 < c →
        ∀ x, (l.tasks.take k).getLast? = some x →
          sumNumbers (l.tasks.take k) < c + x.kind.number) := by
  obtain ⟨idx, ts⟩ := l
  rcases ts with _ | ⟨⟨pk, pid⟩, rest⟩
  · exact ⟨0, by simp [processHead], by simp [processHead], Or.inl rfl,
      Or.inr (Or.inr ⟨rfl, rfl⟩), by simp⟩
  · rcases pk with n | n | _
    · -- head is a DocumentAddition: the coalescing loop runs
      obtain ⟨k, h1, h2, h3, h4, h5⟩ :=
        batchLoop_spec cfg (TaskType.DocumentAddition n)
          (⟨TaskType.DocumentAddition n, pid⟩ :: rest) [] 0
      refine ⟨k, ?_, ?_, ?_, ?_, ?_⟩
      · simpa [processHead] using h1
      · simp [processHead, h2]
      · rcases h4 with h | h
        · exact Or.inl h
        · exact Or.inr (by simpa using h)
      · exact Or.inr (Or.inl ⟨⟨TaskType.DocumentAddition n, pid⟩, rfl, by simp, h3⟩)
      · intro c hc hpos x hx
        simpa using h5 c hc hpos x hx
    · -- head is a DocumentsUpdate: the coalescing loop runs
      obtain ⟨k, h1, h2, h3, h4, h5⟩ :=
        batchLoop_spec cfg (TaskType.DocumentsUpdate n)
          (⟨TaskType.DocumentsUpdate n, pid⟩ :: rest) [] 0
      refine ⟨k, ?_, ?_, ?_, ?_, ?_⟩
      · simpa [processHead] using h1
      · simp [processHead, h2]
      · rcases h4 with h | h
        · exact Or.inl h
        · exact Or.inr (by simpa using h)
      · exact Or.inr (Or.inl ⟨⟨TaskType.DocumentsUpdate n, pid⟩, rfl, by simp, h3⟩)
      · intro c hc hpos x hx
        simpa using h5 c hc hpos x hx
    · -- head is Other: it is batched alone
      refine ⟨1, by simp [processHead], by simp [processHead],
        Or.inr (le_max_right _ 1), Or.inl ⟨pid, rest, rfl, rfl⟩, ?_⟩
      intro c hc hpos x hx
      simp only [List.take_succ_cons, List.take_zero, List.getLast?_singleton,
        Option.some.injEq] at hx
      subst hx
      rw [List.take_succ_cons, List.take_zero, sumNumbers_cons, sumNumbers_nil]
      simp [TaskType.number]
      omega

theorem make_batch_empty {q : TaskQueue} {cfg : SchedulerConfig}
    (h : q.popMax = none) : make_batch q cfg = ([], q) := by
  simp [make_batch, TaskQueue.head_mut, h]

theorem make_batch_ids {q : TaskQueue} {cfg : SchedulerConfig} {l : TaskList}
    {rest : List TaskList} (h : q.popMax = some (l, rest)) :
    (make_batch q cfg).1 = (processHead cfg l).1 := by
  simp only [make_batch, TaskQueue.head_mut, h]
  split <;> rfl

theorem taskTypeEq_addition {x : TaskType} {n : Nat}
    (h : taskTypeEq x (TaskType.DocumentAddition n) = true) :
    ∃ m, x = TaskType.DocumentAddition m := by
  cases x with
  | DocumentAddition m => exact ⟨m, rfl⟩
  | DocumentsUpdate m => simp [taskTypeEq] at h
  | Other => simp [taskTypeEq] at h

theorem taskTypeEq_update {x : TaskType} {n : Nat}
    (h : taskTypeEq x (TaskType.DocumentsUpdate n) = true) :
    ∃ m, x = TaskType.DocumentsUpdate m := by
  cases x with
  | DocumentAddition m => simp [taskTypeEq] at h
  | DocumentsUpdate m => exact ⟨m, rfl⟩
  | Other => simp [taskTypeEq] at h

theorem number_le_sumNumbers {x : PendingTask} {l : List PendingTask} (hx : x ∈ l) :
    x.kind.number ≤ sumNumbers l := by
  induction l with
  | nil => simp at hx
  | cons a as ih =>
    rw [sumNumbers_cons]
    rcases List.mem_cons.mp hx with rfl | hx
    · omega
    · have := ih hx
      omega

theorem not_lt_peek {a b : TaskList} (h : taskListLt a b = false) {y : PendingTask}
    (hb : b.peek = some y) : ∃ x, a.peek = some x ∧ x.id ≤ y.id := by
  rw [Bool.eq_false_iff, ne_eq, taskListLt_true] at h
  cases ha : a.peek with
  | none =>
    rw [ha, hb] at h
    simp at h
  | some x =>
    rw [ha, hb] at h
    simp at h
    exact ⟨x, rfl, by omega⟩

theorem sorted_head_le {l : List PendingTask} (hs : List.Pairwise pendingLe l)
    {h₀ : PendingTask} (hh : l.head? = some h₀) : ∀ p ∈ l, h₀.id ≤ p.id := by
  cases l with
  | nil => simp at hh
  | cons a as =>
    simp only [List.head?_cons, Option.some.injEq] at hh
    subst hh
    rcases hs with - | ⟨ha, _⟩
    intro p hp
    rcases List.mem_cons.mp hp with rfl | hp
    · exact Nat.le_refl _
    · exact ha p hp

/-- The head of a document-task list is always popped first into the batch, and
if its own document count already meets the cap it forms the batch alone. -/
theorem processHead_doc_head (cfg : SchedulerConfig) (idx : String)
    (p : PendingTask) (rest : List PendingTask) (hdoc : p.kind ≠ TaskType.Other) :
    (processHead cfg ⟨idx, p :: rest⟩).1.head? = some p.id ∧
    (∀ c, cfg.max_documents_per_batch = some c → c ≤ p.kind.number →
      (processHead cfg ⟨idx, p :: rest⟩).1 = [p.id]) := by
  obtain ⟨pk, pid⟩ := p
  have hfull : ¬ ([] : List TaskId).length ≥ max cfg.max_batch_size 1 := by
    simp only [List.length_nil]
    omega
  rcases pk with n | n | _
  · have hk : taskTypeEq (TaskType.DocumentAddition n) (TaskType.DocumentAddition n) = true := rfl
    have hstep := batchLoop_push cfg (TaskType.DocumentAddition n)
      ⟨TaskType.DocumentAddition n, pid⟩ rest [] 0 hk hfull
    constructor
    · show (batchLoop cfg (TaskType.DocumentAddition n)
        (⟨TaskType.DocumentAddition n, pid⟩ :: rest) [] 0).1.head? = some pid
      rw [hstep]
      split
      · rfl
      · obtain ⟨k, h1, -⟩ := batchLoop_spec cfg (TaskType.DocumentAddition n) rest
          ([] ++ [pid]) (0 + (TaskType.DocumentAddition n).number)
        rw [h1]
        rfl
    · intro c hc hcn
      have hcond : 0 + (TaskType.DocumentAddition n).number ≥
          cfg.max_documents_per_batch.getD USIZE_MAX := by
        rw [hc]
        simp only [Option.getD_some, TaskType.number]
        simp only [TaskType.number] at hcn
        omega
      show (batchLoop cfg (TaskType.DocumentAddition n)
        (⟨TaskType.DocumentAddition n, pid⟩ :: rest) [] 0).1 = [pid]
      rw [hstep, if_pos hcond]
      rfl
  · have hk : taskTypeEq (TaskType.DocumentsUpdate n) (TaskType.DocumentsUpdate n) = true := rfl
    have hstep := batchLoop_push cfg (TaskType.DocumentsUpdate n)
      ⟨TaskType.DocumentsUpdate n, pid⟩ rest [] 0 hk hfull
    constructor
    · show (batchLoop cfg (TaskType.DocumentsUpdate n)
        (⟨TaskType.DocumentsUpdate n, pid⟩ :: rest) [] 0).1.head? = some pid
      rw [hstep]
      split
      · rfl
      · obtain ⟨k, h1, -⟩ := batchLoop_spec cfg (TaskType.DocumentsUpdate n) rest
          ([] ++ [pid]) (0 + (TaskType.DocumentsUpdate n).number)
        rw [h1]
        rfl
    · intro c hc hcn
      have hcond : 0 + (TaskType.DocumentsUpdate n).number ≥
          cfg.max_documents_per_batch.getD USIZE_MAX := by
        rw [hc]
        simp only [Option.getD_some, TaskType.number]
        simp only [TaskType.number] at hcn
        omega
      show (batchLoop cfg (TaskType.DocumentsUpdate n)
        (⟨TaskType.DocumentsUpdate n, pid⟩ :: rest) [] 0).1 = [pid]
      rw [hstep, if_pos hcond]
      rfl
  · exact absurd rfl hdoc

/-! ### Claim theorems -/

/-- C6: for every task-queue state and every config, one call to `make_batch`
appends at most `max(max_batch_size, 1)` ids to the processing list. -/
theorem C6_batch_size_bound (q : TaskQueue) (cfg : SchedulerConfig) :
    (make_batch q cfg).1.length ≤ max cfg.max_batch_size 1 := by
  rcases hpop : q.popMax with - | ⟨l, rest⟩
  · rw [make_batch_empty hpop]
    simp
  · rw [make_batch_ids hpop]
    obtain ⟨k, h1, -, hk, -⟩ := processHead_spec cfg l
    rw [h1]
    have hlen : ((l.tasks.take k).map PendingTask.id).length ≤ k := by
      simp [List.length_take]
    rcases hk with rfl | hk
    · simpa using hlen
    · omega

/-- C3: a non-empty batch produced by `make_batch` is either exactly one
`Other` task, or one or more tasks that are all `DocumentAddition`s or all
`DocumentsUpdate`s; in particular additions never mix with updates and two
`Other` tasks are never coalesced. -/
theorem C3_batch_homogeneous (q : TaskQueue) (cfg : SchedulerConfig)
    (hne : (make_batch q cfg).1 ≠ []) :
    ∃ l rest, q.popMax = some (l, rest) ∧
      ∃ k, (make_batch q cfg).1 = (l.tasks.take k).map PendingTask.id ∧
        ((∃ i, l.tasks.head? = some ⟨TaskType.Other, i⟩ ∧ k = 1) ∨
         (∀ x ∈ l.tasks.take k, ∃ n, x.kind = TaskType.DocumentAddition n) ∨
         (∀ x ∈ l.tasks.take k, ∃ n, x.kind = TaskType.DocumentsUpdate n)) := by
  rcases hpop : q.popMax with - | ⟨l, rest⟩
  · rw [make_batch_empty hpop] at hne
    simp at hne
  · refine ⟨l, rest, rfl, ?_⟩
    obtain ⟨k, h1, -, -, hshape, -⟩ := processHead_spec cfg l
    refine ⟨k, by rw [make_batch_ids hpop, h1], ?_⟩
    rcases hshape with ⟨i, rest', hts, hk⟩ | ⟨p, hp, hpo, hall⟩ | ⟨hts, hk⟩
    · refine Or.inl ⟨i, ?_, hk⟩
      rw [hts]
      rfl
    · rcases hpk : p.kind with n | n | -
      · refine Or.inr (Or.inl ?_)
        intro x hx
        have hx' := hall x hx
        rw [hpk] at hx'
        exact taskTypeEq_addition hx'
      · refine Or.inr (Or.inr ?_)
        intro x hx
        have hx' := hall x hx
        rw [hpk] at hx'
        exact taskTypeEq_update hx'
      · exact absurd hpk hpo
    · exfalso
      apply hne
      rw [make_batch_ids hpop, h1, hts, hk]
      rfl

/-- C4: for every task queue reached by inserts, one call to `make_batch`
draws all its ids from the single task list that `head_mut` pops, and that
list's head carries an id no larger than any pending id in the queue. -/
theorem C4_single_index_smallest (q : TaskQueue) (cfg : SchedulerConfig)
    (hq : Reachable q) (l : TaskList) (rest : List TaskList)
    (hpop : q.popMax = some (l, rest)) :
    (∀ i ∈ (make_batch q cfg).1, i ∈ l.tasks.map PendingTask.id) ∧
    l ∈ q.queue ∧
    (∀ l' ∈ q.queue, ∀ p ∈ l'.tasks, ∃ h₀, l.peek = some h₀ ∧ h₀.id ≤ p.id) := by
  obtain ⟨m, xs, hqq, hsel⟩ : ∃ m xs, q.queue = m :: xs ∧ selectMax m xs = (l, rest) := by
    unfold TaskQueue.popMax at hpop
    rcases hq' : q.queue with - | ⟨m, xs⟩
    · rw [hq'] at hpop
      exact absurd hpop (by simp)
    · rw [hq'] at hpop
      simp only [Option.some.injEq] at hpop
      exact ⟨m, xs, rfl, hpop⟩
  obtain ⟨hmem, hmax⟩ := selectMax_spec m xs
  rw [hsel] at hmem hmax
  have hlq : l ∈ q.queue := by
    rw [hqq]
    rcases hmem with rfl | h
    · exact List.mem_cons_self _ _
    · exact List.mem_cons_of_mem _ h
  refine ⟨?_, hlq, ?_⟩
  · intro i hi
    rw [make_batch_ids hpop] at hi
    obtain ⟨k, h1, -⟩ := processHead_spec cfg l
    rw [h1] at hi
    obtain ⟨x, hx, rfl⟩ := List.mem_map.mp hi
    exact List.mem_map_of_mem _ (List.mem_of_mem_take hx)
  · intro l' hl' p hp
    have hlt : taskListLt l l' = false := by
      apply hmax
      rw [hqq] at hl'
      rcases List.mem_cons.mp hl' with rfl | h
      · exact Or.inl rfl
      · exact Or.inr h
    obtain ⟨h₁, hh₁⟩ : ∃ h₁, l'.peek = some h₁ := by
      unfold TaskList.peek
      cases hts : l'.tasks with
      | nil =>
        rw [hts] at hp
        simp at hp
      | cons a as => exact ⟨a, rfl⟩
    obtain ⟨h₀, hh₀, hle⟩ := not_lt_peek hlt hh₁
    have hs := reachable_sorted hq l' hl'
    have hhead := sorted_head_le hs hh₁ p hp
    exact ⟨h₀, hh₀, Nat.le_trans hle hhead⟩

/-- C5: with a (positive) document cap configured, the batched document tasks
always satisfy "sum of counts minus the last count < cap"; and because the cap
is tested only after pushing, a document head whose own count meets the cap is
still batched — alone — rather than skipped. -/
theorem C5_document_cap (q : TaskQueue) (cfg : SchedulerConfig) (c : Nat)
    (hc : cfg.max_documents_per_batch = some c) (hpos : 0 < c)
    (l : TaskList) (rest : List TaskList) (hpop : q.popMax = some (l, rest)) :
    (∃ k, (make_batch q cfg).1 = (l.tasks.take k).map PendingTask.id ∧
      (∀ x, (l.tasks.take k).getLast? = some x →
        sumNumbers (l.tasks.take k) - x.kind.number < c)) ∧
    (∀ p, l.tasks.head? = some p → p.kind ≠ TaskType.Other →
      (make_batch q cfg).1.head? = some p.id ∧
      (c ≤ p.kind.number → (make_batch q cfg).1 = [p.id])) := by
  constructor
  · obtain ⟨k, h1, -, -, -, hcap⟩ := processHead_spec cfg l
    refine ⟨k, by rw [make_batch_ids hpop, h1], ?_⟩
    intro x hx
    have hsum := hcap c hc hpos x hx
    have hmem : x ∈ l.tasks.take k := by
      obtain ⟨hne', hgl⟩ := List.mem_getLast?_eq_getLast (l := l.tasks.take k) (x := x) hx
      rw [hgl]
      exact List.getLast_mem hne'
    have := number_le_sumNumbers hmem
    omega
  · intro p hp hpo
    obtain ⟨idx, ts⟩ := l
    rcases ts with - | ⟨a, as⟩
    · simp [TaskList.peek] at hp
    · simp only [List.head?_cons, Option.some.injEq] at hp
      subst hp
      obtain ⟨hh, ho⟩ := processHead_doc_head cfg idx a as hpo
      rw [make_batch_ids hpop]
      exact ⟨hh, fun hcn => ho c hc hcn⟩

theorem heapReach_sorted {ts : List PendingTask} (h : HeapReach ts) :
    List.Pairwise pendingLe ts := by
  induction h with
  | nil => exact List.Pairwise.nil
  | push p _ ih => exact pairwise_heapPush ih
  | pop _ ih =>
    rename_i ts' _
    cases ts' with
    | nil => exact List.Pairwise.nil
    | cons a as => exact (List.pairwise_cons.mp ih).2

/-- C2: starting from the empty queue, the eight inserts of the spec scenario
(additions 0,1,3,4,6,7; deletions 2,5; index a = {0,4,5,7}, b = {1,2,3,6})
followed by six `make_batch` calls under a no-cap config whose batch size
bound is at least two — which any finite default admitting the repository's
own `test_make_batch` must be — produce [0,4], [1], [2], [3,6], [5], [7] and
leave the queue empty. -/
theorem C2_test_scenario (cfg : SchedulerConfig) (hmbs : 2 ≤ cfg.max_batch_size)
    (hcap : cfg.max_documents_per_batch = none) :
    (runBatches 6 C2queue cfg).1 = [[0, 4], [1], [2], [3, 6], [5], [7]] ∧
    (runBatches 6 C2queue cfg).2.is_empty = true := by
  obtain ⟨mbs, mdb, dds⟩ := cfg
  dsimp only at hmbs hcap
  subst hcap
  have h0 : ¬ (0 ≥ max mbs 1) := by omega
  have h1 : ¬ (1 ≥ max mbs 1) := by omega
  simp +decide [runBatches, make_batch, TaskQueue.head_mut, TaskQueue.popMax, selectMax,
    processHead, batchLoop, C2queue, TaskQueue.insert, TaskQueue.empty, insertList,
    TaskList.push, heapPush, taskListLt, taskListCmp, pendingCmp, TaskList.peek,
    TaskType.ofContent, taskTypeEq, USIZE_MAX, TaskQueue.is_empty, addR, h0, h1]

/-! ### The vector heap: drain order -/

theorem getD_append_length (l : List PendingTask) (p d : PendingTask) :
    (l ++ [p]).getD l.length d = p := by
  induction l with
  | nil => rfl
  | cons a as ih => simpa using ih

theorem getD_append_lt (l : List PendingTask) (p d : PendingTask) {i : Nat}
    (h : i < l.length) : (l ++ [p]).getD i d = l.getD i d := by
  induction l generalizing i with
  | nil => simp at h
  | cons a as ih =>
    cases i with
    | zero => rfl
    | succ j => simpa using ih (by simpa using h)

theorem getD_mem (l : List PendingTask) (d : PendingTask) :
    ∀ i, i < l.length → l.getD i d ∈ l := by
  induction l with
  | nil =>
    intro i hi
    simp at hi
  | cons a as ih =>
    intro i hi
    cases i with
    | zero => exact List.mem_cons_self _ _
    | succ j =>
      simp only [List.getD_cons_succ]
      exact List.mem_cons_of_mem _ (ih j (by simpa using hi))

/-- Pushing an id larger than everything already in the heap appends it: the
sift-up compares the new slot with its parent once and stops, so the vector
stays in insertion order. -/
theorem vecPush_of_gt {p : PendingTask} {l : List PendingTask}
    (hgt : ∀ q ∈ l, q.id < p.id) : vecPush p l = l ++ [p] := by
  cases l with
  | nil =>
    unfold vecPush
    rw [siftUpFrom]
    simp
  | cons a as =>
    have hpar : ((a :: as).length - 1) / 2 < (a :: as).length := by
      simp only [List.length_cons]
      omega
    have hlt : ¬ (((a :: as) ++ [p]).getD (a :: as).length dummy).id <
        (((a :: as) ++ [p]).getD (((a :: as).length - 1) / 2) dummy).id := by
      rw [getD_append_length, getD_append_lt _ _ _ hpar]
      have := hgt _ (getD_mem (a :: as) dummy _ hpar)
      omega
    unfold vecPush
    rw [siftUpFrom]
    simp only [dif_pos (by simp : (0 : Nat) < (a :: as).length)]
    rw [if_neg hlt]

theorem foldl_vecPush_of_gt : ∀ (ps acc : List PendingTask),
    List.Pairwise (fun a b : PendingTask => a.id < b.id) ps →
    (∀ q ∈ acc, ∀ r ∈ ps, q.id < r.id) →
    ps.foldl (fun v p => vecPush p v) acc = acc ++ ps := by
  intro ps
  induction ps with
  | nil =>
    intro acc _ _
    simp
  | cons p ps ih =>
    intro acc hp hacc
    simp only [List.foldl_cons]
    rw [vecPush_of_gt (fun q hq => hacc q hq p (List.mem_cons_self _ _))]
    rw [ih (acc ++ [p]) (List.pairwise_cons.mp hp).2 (by
      intro q hq r hr
      rcases List.mem_append.mp hq with hq | hq
      · exact hacc q hq r (List.mem_cons_of_mem _ hr)
      · simp only [List.mem_singleton] at hq
        subst hq
        exact (List.pairwise_cons.mp hp).1 r hr)]
    simp

/-- C7 (amended): on every heap state reachable by pushes and pops, `pop`
returns the pending task with the smallest id; and on the vector that `drain`
iterates, a push-only sequence with strictly increasing ids — the discipline
the insert assertion enforces, and the only way the repository's tests build
the lists they drain — leaves the vector in exactly insertion order, so
`drain` yields ids in ascending order there. After a `pop` the vector order
need not be ascending (see `C7_drain_counterexample`). -/
theorem C7_pop_min_drain_amended (ts : List PendingTask) (h : HeapReach ts)
    (ps : List PendingTask)
    (hinc : List.Pairwise (fun a b : PendingTask => a.id < b.id) ps) :
    (∀ p, ts.head? = some p → ∀ q ∈ ts, p.id ≤ q.id) ∧
    ps.foldl (fun v p => vecPush p v) [] = ps ∧
    List.Pairwise (fun a b : Nat => a ≤ b)
      ((ps.foldl (fun v p => vecPush p v) []).map PendingTask.id) := by
  have hs := heapReach_sorted h
  have hfold : ps.foldl (fun v p => vecPush p v) [] = ps := by
    have := foldl_vecPush_of_gt ps [] hinc (by simp)
    simpa using this
  refine ⟨fun p hp q hq => sorted_head_le hs hp q hq, hfold, ?_⟩
  rw [hfold, List.pairwise_map]
  exact hinc.imp (fun hab => Nat.le_of_lt hab)

/-- C7 counterexample: the vector state reached by pushing ids 0,1,2,3,4 and
popping once is [1, 3, 2, 4] — reachable by push and pop, yet its drain order
(the vector order) is not ascending. This refutes the claim's drain conjunct
as stated. -/
theorem C7_drain_counterexample :
    VecReach C7vec ∧
    C7vec.map PendingTask.id = [1, 3, 2, 4] ∧
    ¬ List.Pairwise (fun a b : Nat => a ≤ b) (C7vec.map PendingTask.id) := by
  have hmap : C7vec.map PendingTask.id = [1, 3, 2, 4] := by
    simp +decide [C7vec, vecPop, vecPush, siftUpFrom, siftDownToBottom, toBottom, dummy]
  refine ⟨?_, hmap, ?_⟩
  · exact VecReach.pop (VecReach.push _ (VecReach.push _ (VecReach.push _
      (VecReach.push _ (VecReach.push _ VecReach.nil)))))
  · rw [hmap]
    decide

theorem insertAllOk_of_gt : ∀ (ts : List Task) (q : TaskQueue),
    List.Pairwise (fun a b : Task => a.id < b.id) ts →
    (∀ l ∈ q.queue, ∀ p ∈ l.tasks, ∀ t ∈ ts, p.id < t.id) →
    insertAllOk q ts = true := by
  intro ts
  induction ts with
  | nil =>
    intro q _ _
    rfl
  | cons t rest ih =>
    intro q hp hq
    rw [insertAllOk, Bool.and_eq_true]
    constructor
    · rw [TaskQueue.insertOk, List.all_eq_true]
      intro l hl
      by_cases hidx : l.index = t.index_uid
      · cases hh : l.tasks.head? with
        | none => simp [hidx, hh]
        | some p =>
          have hpmem : p ∈ l.tasks := by
            cases hts : l.tasks with
            | nil =>
              rw [hts] at hh
              simp at hh
            | cons a as =>
              rw [hts] at hh
              simp only [List.head?_cons, Option.some.injEq] at hh
              subst hh
              exact List.mem_cons_self _ _
          have := hq l hl p hpmem t (List.mem_cons_self _ _)
          simp [hidx, hh, this]
      · simp [hidx]
    · apply ih (q.insert t) (List.pairwise_cons.mp hp).2
      intro l hl p hpm t' ht'
      have hl' : l ∈ insertList t.index_uid ⟨TaskType.ofContent t.content, t.id⟩ q.queue := hl
      rcases mem_insertList hl' with h | ⟨l₀, hl₀, rfl⟩ | rfl
      · exact hq l h p hpm t' (List.mem_cons_of_mem _ ht')
      · rcases mem_heapPush.mp hpm with rfl | hpm'
        · have := (List.pairwise_cons.mp hp).1 t' ht'
          simpa using this
        · exact hq l₀ hl₀ p hpm' t' (List.mem_cons_of_mem _ ht')
      · simp only [List.mem_singleton] at hpm
        subst hpm
        have := (List.pairwise_cons.mp hp).1 t' ht'
        simpa using this

/-- C8: if the ids of a sequence of inserts are strictly increasing across the
whole sequence, the monotonicity assertion inside `TaskQueue::insert` holds at
every step (starting from the empty queue). -/
theorem C8_insert_assert (ts : List Task)
    (hinc : List.Pairwise (fun a b : Task => a.id < b.id) ts) :
    insertAllOk TaskQueue.empty ts = true := by
  apply insertAllOk_of_gt ts TaskQueue.empty hinc
  intro l hl
  simp [TaskQueue.empty] at hl

/-! ### Fetching from the store -/

theorem foldl_fetchStep_frame (L : List Task) (s : Scheduler) :
    (L.foldl fetchStep s).store = s.store ∧
    (L.foldl fetchStep s).jobs = s.jobs ∧
    (L.foldl fetchStep s).processing = s.processing ∧
    (L.foldl fetchStep s).config = s.config := by
  induction L generalizing s with
  | nil => exact ⟨rfl, rfl, rfl, rfl⟩
  | cons t L ih =>
    simp only [List.foldl_cons]
    exact ih (fetchStep s t)

theorem foldl_fetchStep_nfti (L : List Task) (s : Scheduler) :
    (L.foldl fetchStep s).next_fetched_task_id =
      (L.getLast?.map fun t => t.id + 1).getD s.next_fetched_task_id := by
  induction L generalizing s with
  | nil => rfl
  | cons t L ih =>
    simp only [List.foldl_cons]
    rw [ih (fetchStep s t)]
    cases L with
    | nil => rfl
    | cons u M =>
      rw [List.getLast?_cons_cons,
        List.getLast?_eq_getLast_of_ne_nil (List.cons_ne_nil u M)]
      rfl

theorem mem_list_tasks_pending {store : List Task} {after : Nat} {t : Task} :
    t ∈ list_tasks_pending store after ↔
      t ∈ store ∧ after ≤ t.id ∧ t.is_finished = false := by
  unfold list_tasks_pending pendingIn
  rw [List.Perm.mem_iff (List.perm_insertionSort _ _)]
  simp [List.mem_filter, and_assoc]

theorem sorted_list_tasks_pending (store : List Task) (after : Nat) :
    List.Pairwise taskGe (list_tasks_pending store after) :=
  List.sorted_insertionSort taskGe _

/-- C9: one `fetch_pending_tasks` call advances `next_fetched_task_id` to one
past the largest id the store returned (and is the identity when nothing is
returned), so a second call on the unchanged store fetches nothing and leaves
the whole scheduler state unchanged. -/
theorem C9_fetch_advances_and_idempotent (s : Scheduler) :
    (list_tasks_pending s.store s.next_fetched_task_id = [] →
      fetch_pending_tasks s = s) ∧
    (∀ t ∈ list_tasks_pending s.store s.next_fetched_task_id,
      t.id < (fetch_pending_tasks s).next_fetched_task_id) ∧
    (list_tasks_pending s.store s.next_fetched_task_id ≠ [] →
      ∃ t ∈ list_tasks_pending s.store s.next_fetched_task_id,
        (fetch_pending_tasks s).next_fetched_task_id = t.id + 1) ∧
    fetch_pending_tasks (fetch_pending_tasks s) = fetch_pending_tasks s := by
  have hnil : ∀ s' : Scheduler,
      list_tasks_pending s'.store s'.next_fetched_task_id = [] →
      fetch_pending_tasks s' = s' := by
    intro s' h
    unfold fetch_pending_tasks
    rw [h]
    rfl
  have hfold : fetch_pending_tasks s =
      (list_tasks_pending s.store s.next_fetched_task_id).reverse.foldl fetchStep s := rfl
  have hnfti : (fetch_pending_tasks s).next_fetched_task_id =
      ((list_tasks_pending s.store s.next_fetched_task_id).head?.map
        fun t => t.id + 1).getD s.next_fetched_task_id := by
    rw [hfold, foldl_fetchStep_nfti, List.getLast?_reverse]
  cases hF : list_tasks_pending s.store s.next_fetched_task_id with
  | nil =>
    have hid := hnil s hF
    refine ⟨fun _ => hid, by simp, fun h => absurd rfl h, ?_⟩
    rw [hid, hid]
  | cons t F' =>
    have hsort := sorted_list_tasks_pending s.store s.next_fetched_task_id
    rw [hF] at hsort
    have hmax : ∀ u ∈ t :: F', u.id ≤ t.id := by
      intro u hu
      rcases List.mem_cons.mp hu with rfl | hu
      · exact Nat.le_refl _
      · exact (List.pairwise_cons.mp hsort).1 u hu
    have hnfti' : (fetch_pending_tasks s).next_fetched_task_id = t.id + 1 := by
      rw [hnfti, hF]
      rfl
    have htmem : t ∈ list_tasks_pending s.store s.next_fetched_task_id := by
      rw [hF]
      exact List.mem_cons_self _ _
    have htid : s.next_fetched_task_id ≤ t.id :=
      (mem_list_tasks_pending.mp htmem).2.1
    refine ⟨fun h => absurd h (List.cons_ne_nil t F'), ?_, ?_, ?_⟩
    · intro u hu
      have := hmax u hu
      omega
    · intro _
      exact ⟨t, List.mem_cons_self _ _, hnfti'⟩
    · -- the second call sees an empty listing
      have hstore : (fetch_pending_tasks s).store = s.store := by
        rw [hfold]
        exact (foldl_fetchStep_frame _ s).1
      have hF2 : list_tasks_pending (fetch_pending_tasks s).store
          (fetch_pending_tasks s).next_fetched_task_id = [] := by
        rw [List.eq_nil_iff_forall_not_mem]
        intro u hu
        rw [hstore, hnfti'] at hu
        obtain ⟨hu1, hu2, hu3⟩ := mem_list_tasks_pending.mp hu
        have humem : u ∈ list_tasks_pending s.store s.next_fetched_task_id := by
          rw [mem_list_tasks_pending]
          exact ⟨hu1, by omega, hu3⟩
        rw [hF] at humem
        have := hmax u humem
        omega
      exact hnil _ hF2

/-! ### prepare: the job branch and the notify condition -/

/-- C10: when the job deque is non-empty, `prepare` pops and returns the front
job, and the task queue, the processing list, `next_fetched_task_id` and the
store view are all left untouched — in particular no fetch happens. -/
theorem C10_prepare_job_frame (s : Scheduler) (j : Job) (rest : List Job)
    (hj : s.jobs = j :: rest) :
    prepare s = some (Pending.Job j, { s with jobs := rest },
      notifiy_if_not_empty_fires { s with jobs := rest }) ∧
    ({ s with jobs := rest } : Scheduler).tasks = s.tasks ∧
    ({ s with jobs := rest } : Scheduler).processing = s.processing ∧
    ({ s with jobs := rest } : Scheduler).next_fetched_task_id = s.next_fetched_task_id ∧
    ({ s with jobs := rest } : Scheduler).store = s.store := by
  refine ⟨?_, rfl, rfl, rfl, rfl⟩
  unfold prepare
  rw [hj]

/-- Scheduler with two queued jobs, an empty task queue and an empty store:
after `prepare` pops the first job, a job still remains. -/
def C1state : Scheduler :=
  { jobs := [⟨0⟩, ⟨1⟩], tasks := TaskQueue.empty, store := [], processing := [],
    next_fetched_task_id := 0, config := ⟨100, none, none⟩ }

/-- Scheduler with a single queued job and nothing else: after `prepare` pops
it, no pending work remains at all. -/
def C1other : Scheduler :=
  { jobs := [⟨0⟩], tasks := TaskQueue.empty, store := [], processing := [],
    next_fetched_task_id := 0, config := ⟨100, none, none⟩ }

/-- C1 (code bug, scheduler.rs:262): the source tests
`!!self.jobs.is_empty() || !self.tasks.is_empty()` — the double negation makes
it fire `notify()` exactly when the job deque is EMPTY or tasks remain.
Evaluated on the failing inputs: with two queued jobs, `prepare` pops one,
a job remains, yet no notification fires; with one queued job, `prepare` pops
it, nothing remains, yet a notification fires. Both directions contradict the
claim (and the source's own comment "There is more work to do, notify the
update loop"). -/
theorem C1_notify_condition_bug :
    (prepare C1state = some (Pending.Job ⟨0⟩, { C1state with jobs := [⟨1⟩] }, false) ∧
      ({ C1state with jobs := [⟨1⟩] } : Scheduler).jobs ≠ []) ∧
    (prepare C1other = some (Pending.Job ⟨0⟩, { C1other with jobs := [] }, true) ∧
      ({ C1other with jobs := [] } : Scheduler).jobs = [] ∧
      ({ C1other with jobs := [] } : Scheduler).tasks.is_empty = true) := by
  refine ⟨⟨rfl, by decide⟩, rfl, rfl, rfl⟩

/-! ### Concrete witnesses -/

def C3queue : TaskQueue :=
  (TaskQueue.empty.insert ⟨0, "x", .DocumentAddition .ReplaceDocuments 3, []⟩).insert
    ⟨1, "x", .DocumentAddition .ReplaceDocuments 4, []⟩

def C5queue : TaskQueue :=
  (TaskQueue.empty.insert ⟨0, "a", .DocumentAddition .ReplaceDocuments 70, []⟩).insert
    ⟨1, "a", .DocumentAddition .ReplaceDocuments 70, []⟩

def C10state : Scheduler :=
  { jobs := [⟨7⟩, ⟨8⟩], tasks := ⟨[⟨"x", [⟨TaskType.Other, 9⟩]⟩]⟩,
    store := [], processing := [3], next_fetched_task_id := 5,
    config := ⟨10, some 4, none⟩ }

def C9sched : Scheduler :=
  { jobs := [], tasks := TaskQueue.empty,
    store := [⟨0, "a", .IndexDeletion, []⟩, ⟨1, "b", .IndexCreation, []⟩,
      ⟨2, "a", .IndexDeletion, [.Succeeded]⟩],
    processing := [], next_fetched_task_id := 0, config := ⟨10, none, none⟩ }

theorem C2_test_scenario_witness :
    (runBatches 6 C2queue ⟨100, none, none⟩).1 = [[0, 4], [1], [2], [3, 6], [5], [7]] ∧
    (runBatches 6 C2queue ⟨100, none, none⟩).2.is_empty = true :=
  C2_test_scenario ⟨100, none, none⟩ (by decide) rfl

theorem C3_batch_homogeneous_witness :
    ∃ l rest, C3queue.popMax = some (l, rest) ∧
      ∃ k, (make_batch C3queue ⟨10, none, none⟩).1 = (l.tasks.take k).map PendingTask.id ∧
        ((∃ i, l.tasks.head? = some ⟨TaskType.Other, i⟩ ∧ k = 1) ∨
         (∀ x ∈ l.tasks.take k, ∃ n, x.kind = TaskType.DocumentAddition n) ∨
         (∀ x ∈ l.tasks.take k, ∃ n, x.kind = TaskType.DocumentsUpdate n)) :=
  C3_batch_homogeneous C3queue ⟨10, none, none⟩ (by decide)

theorem C4_single_index_smallest_witness :
    (∀ i ∈ (make_batch C3queue ⟨10, none, none⟩).1,
      i ∈ (⟨"x", [⟨TaskType.DocumentAddition 3, 0⟩, ⟨TaskType.DocumentAddition 4, 1⟩]⟩ :
        TaskList).tasks.map PendingTask.id) ∧
    (⟨"x", [⟨TaskType.DocumentAddition 3, 0⟩, ⟨TaskType.DocumentAddition 4, 1⟩]⟩ :
      TaskList) ∈ C3queue.queue ∧
    (∀ l' ∈ C3queue.queue, ∀ p ∈ l'.tasks,
      ∃ h₀, (⟨"x", [⟨TaskType.DocumentAddition 3, 0⟩, ⟨TaskType.DocumentAddition 4, 1⟩]⟩ :
        TaskList).peek = some h₀ ∧ h₀.id ≤ p.id) :=
  C4_single_index_smallest C3queue ⟨10, none, none⟩
    (Reachable.insert _ (Reachable.insert _ Reachable.empty)) _ _ rfl

theorem C5_document_cap_witness :
    (∃ k, (make_batch C5queue ⟨10, some 100, none⟩).1 =
        ((⟨"a", [⟨TaskType.DocumentAddition 70, 0⟩, ⟨TaskType.DocumentAddition 70, 1⟩]⟩ :
          TaskList).tasks.take k).map PendingTask.id ∧
      (∀ x, (((⟨"a", [⟨TaskType.DocumentAddition 70, 0⟩, ⟨TaskType.DocumentAddition 70, 1⟩]⟩ :
          TaskList).tasks.take k).getLast? = some x →
        sumNumbers ((⟨"a", [⟨TaskType.DocumentAddition 70, 0⟩, ⟨TaskType.DocumentAddition 70, 1⟩]⟩ :
          TaskList).tasks.take k) - x.kind.number < 100))) ∧
    (∀ p, (⟨"a", [⟨TaskType.DocumentAddition 70, 0⟩, ⟨TaskType.DocumentAddition 70, 1⟩]⟩ :
        TaskList).tasks.head? = some p → p.kind ≠ TaskType.Other →
      (make_batch C5queue ⟨10, some 100, none⟩).1.head? = some p.id ∧
      (100 ≤ p.kind.number → (make_batch C5queue ⟨10, some 100, none⟩).1 = [p.id])) :=
  C5_document_cap C5queue ⟨10, some 100, none⟩ 100 rfl (by decide) _ _ rfl

def C7heap : List PendingTask :=
  heapPush ⟨TaskType.Other, 2⟩ (heapPush ⟨TaskType.Other, 5⟩ [])

theorem C7_pop_min_drain_amended_witness :
    (∀ p, C7heap.head? = some p → ∀ q ∈ C7heap, p.id ≤ q.id) ∧
    ([⟨TaskType.Other, 1⟩, ⟨TaskType.Other, 2⟩] : List PendingTask).foldl
      (fun v p => vecPush p v) [] = [⟨TaskType.Other, 1⟩, ⟨TaskType.Other, 2⟩] ∧
    List.Pairwise (fun a b : Nat => a ≤ b)
      ((([⟨TaskType.Other, 1⟩, ⟨TaskType.Other, 2⟩] : List PendingTask).foldl
        (fun v p => vecPush p v) []).map PendingTask.id) :=
  C7_pop_min_drain_amended C7heap
    (HeapReach.push _ (HeapReach.push _ HeapReach.nil)) _ (by decide)

theorem C8_insert_assert_witness :
    insertAllOk TaskQueue.empty
      [⟨0, "a", .IndexDeletion, []⟩, ⟨1, "b", .IndexDeletion, []⟩,
        ⟨2, "a", .IndexDeletion, []⟩] = true :=
  C8_insert_assert _ (by decide)

theorem C9_fetch_witness :
    fetch_pending_tasks (fetch_pending_tasks C9sched) = fetch_pending_tasks C9sched ∧
    (fetch_pending_tasks C9sched).next_fetched_task_id = 2 :=
  ⟨(C9_fetch_advances_and_idempotent C9sched).2.2.2, by decide⟩

theorem C10_prepare_job_frame_witness :
    prepare C10state = some (Pending.Job ⟨7⟩, { C10state with jobs := [⟨8⟩] },
      notifiy_if_not_empty_fires { C10state with jobs := [⟨8⟩] }) ∧
    ({ C10state with jobs := [⟨8⟩] } : Scheduler).tasks = C10state.tasks ∧
    ({ C10state with jobs := [⟨8⟩] } : Scheduler).processing = C10state.processing ∧
    ({ C10state with jobs := [⟨8⟩] } : Scheduler).next_fetched_task_id =
      C10state.next_fetched_task_id ∧
    ({ C10state with jobs := [⟨8⟩] } : Scheduler).store = C10state.store :=
  C10_prepare_job_frame C10state ⟨7⟩ [⟨8⟩] rfl

end MeiliTasks
